import Mathlib

/-!
Verification of the wallet address-derivation core of the repository:
key-pair-to-address derivation (Bitcoin Base58Check and Ethereum hex) and
Base58Check address validation, as implemented in `src/accounts/accounts.go`
(functions `newKeyPair`, `HashPubKey`, `checksum`, `GetBtcAddress`,
`GetEthAddress`, `ValidateAddress`).

Bytes are modelled as `Nat` values below 256 and byte slices as `List Nat`.
Go panics (out-of-range slice expressions) are modelled by `Option`: a
function that can panic returns `none` exactly on the inputs where the Go
code panics.  The cryptographic primitives the source calls (`crypto/sha256`,
`golang.org/x/crypto/ripemd160`, `crypto.Keccak256`) and the Base58 codec it
calls (`github.com/btcsuite/btcutil/base58`) are embedded here in full as
executable functions, faithful to those libraries' algorithms.
-/

/-! ## Positional digit expansion, shared by the byte and Base58 codecs

`big.Int.SetBytes` interprets a byte slice as a big-endian number and
`big.Int.Bytes` produces the minimal big-endian byte representation; the
Base58 loop in `btcsuite/btcutil/base58` does the same with radix 58.  Both
are instances of minimal most-significant-first digit expansion in a base
`B ≥ 2`.  `natToDigitsAux` uses a fuel argument (`fuel ≥ n` suffices) so that
the recursion is structural. -/

def natToDigitsAux (B : Nat) : Nat → Nat → List Nat
  | 0, _ => []
  | _ + 1, 0 => []
  | fuel + 1, n + 1 => natToDigitsAux B fuel ((n + 1) / B) ++ [(n + 1) % B]

/-- Minimal big-endian digit expansion of `n` in base `B` (empty for `n = 0`). -/
def natToDigits (B n : Nat) : List Nat := natToDigitsAux B n n

/-- Big-endian numeric value of a digit string in base `B`; for `B = 256`
this is exactly `big.Int.SetBytes`, for `B = 58` the accumulation loop of
`base58.Decode`. -/
def digitsVal (B : Nat) (l : List Nat) : Nat := l.foldl (fun a d => a * B + d) 0

theorem natToDigitsAux_congr {B : Nat} (hB : 2 ≤ B) :
    ∀ n f g, n ≤ f → n ≤ g → natToDigitsAux B f n = natToDigitsAux B g n := by
  intro n
  induction n using Nat.strong_induction_on with
  | _ n ih =>
    intro f g hf hg
    match n, f, g with
    | 0, 0, 0 => rfl
    | 0, 0, _ + 1 => rfl
    | 0, _ + 1, 0 => rfl
    | 0, _ + 1, _ + 1 => rfl
    | m + 1, f + 1, g + 1 =>
      simp only [natToDigitsAux]
      have hdiv : (m + 1) / B < m + 1 := Nat.div_lt_self (Nat.succ_pos m) (by omega)
      have hle : (m + 1) / B ≤ m := by omega
      rw [ih ((m + 1) / B) hdiv f g (by omega) (by omega)]

theorem natToDigitsAux_eq {B : Nat} (hB : 2 ≤ B) {n f : Nat} (h : n ≤ f) :
    natToDigitsAux B f n = natToDigits B n :=
  natToDigitsAux_congr hB n f n h (Nat.le_refl n)

theorem natToDigits_zero (B : Nat) : natToDigits B 0 = [] := rfl

theorem natToDigits_pos {B : Nat} (hB : 2 ≤ B) {n : Nat} (hn : 0 < n) :
    natToDigits B n = natToDigits B (n / B) ++ [n % B] := by
  match n, hn with
  | m + 1, _ =>
    show natToDigitsAux B (m + 1) (m + 1) = _
    simp only [natToDigitsAux]
    rw [natToDigitsAux_eq hB
      (Nat.lt_succ_iff.mp (Nat.div_lt_self (Nat.succ_pos m) (show 1 < B by omega)))]

theorem natToDigits_ne_nil {B : Nat} (hB : 2 ≤ B) {n : Nat} (hn : 0 < n) :
    natToDigits B n ≠ [] := by
  rw [natToDigits_pos hB hn]
  simp

theorem digitsVal_go {B : Nat} :
    ∀ (l : List Nat) (a : Nat),
      l.foldl (fun x d => x * B + d) a = a * B ^ l.length + digitsVal B l := by
  intro l
  induction l with
  | nil => intro a; simp [digitsVal]
  | cons h t ih =>
    intro a
    have h1 : digitsVal B (h :: t) = h * B ^ t.length + digitsVal B t := by
      show List.foldl _ (0 * B + h) t = _
      rw [ih (0 * B + h)]
      ring
    show List.foldl _ (a * B + h) t = _
    rw [ih (a * B + h), h1]
    simp only [List.length_cons, Nat.pow_succ]
    ring

theorem digitsVal_cons {B h : Nat} {t : List Nat} :
    digitsVal B (h :: t) = h * B ^ t.length + digitsVal B t := by
  show List.foldl _ (0 * B + h) t = _
  rw [digitsVal_go t (0 * B + h)]
  ring

theorem digitsVal_append_singleton {B d : Nat} {l : List Nat} :
    digitsVal B (l ++ [d]) = digitsVal B l * B + d := by
  unfold digitsVal
  rw [List.foldl_append]
  rfl

theorem digitsVal_natToDigits {B : Nat} (hB : 2 ≤ B) (n : Nat) :
    digitsVal B (natToDigits B n) = n := by
  induction n using Nat.strong_induction_on with
  | _ n ih =>
    rcases Nat.eq_zero_or_pos n with h0 | hpos
    · subst h0; rfl
    · rw [natToDigits_pos hB hpos, digitsVal_append_singleton,
        ih (n / B) (Nat.div_lt_self hpos (by omega)), Nat.mul_comm]
      exact Nat.div_add_mod n B

theorem digitsVal_lt {B : Nat} (hB : 2 ≤ B) {l : List Nat}
    (hl : ∀ x ∈ l, x < B) : digitsVal B l < B ^ l.length := by
  induction l with
  | nil => simp [digitsVal]
  | cons h t ih =>
    rw [digitsVal_cons]
    have h1 : h < B := hl h (List.mem_cons_self h t)
    have h2 : digitsVal B t < B ^ t.length := ih (fun x hx => hl x (List.mem_cons_of_mem h hx))
    have h3 : h * B ^ t.length + digitsVal B t < (h + 1) * B ^ t.length := by
      have h4 : (h + 1) * B ^ t.length = h * B ^ t.length + B ^ t.length := add_one_mul _ _
      omega
    calc h * B ^ t.length + digitsVal B t < (h + 1) * B ^ t.length := h3
      _ ≤ B * B ^ t.length := Nat.mul_le_mul_right _ (by omega)
      _ = B ^ (t.length + 1) := by rw [Nat.pow_succ]; ring
      _ = B ^ (h :: t).length := by simp

theorem digitsVal_replicate_zero_append {B k : Nat} {l : List Nat} :
    digitsVal B (List.replicate k 0 ++ l) = digitsVal B l := by
  induction k with
  | zero => simp
  | succ m ih =>
    show digitsVal B (0 :: (List.replicate m 0 ++ l)) = _
    rw [digitsVal_cons, ih]
    simp

theorem digitsVal_pos {B : Nat} (hB : 1 ≤ B) {l : List Nat} {h : Nat}
    (hh : l.head? = some h) (hne : h ≠ 0) : 0 < digitsVal B l := by
  match l with
  | [] => simp at hh
  | a :: t =>
    have ha : a = h := by simpa using hh
    subst ha
    rw [digitsVal_cons]
    have h1 : 0 < B ^ t.length := pow_pos (by omega) _
    have h2 : 1 * B ^ t.length ≤ a * B ^ t.length := Nat.mul_le_mul_right _ (by omega)
    omega

theorem natToDigits_digitsVal {B : Nat} (hB : 2 ≤ B) :
    ∀ (l : List Nat), (∀ x ∈ l, x < B) → l.head? ≠ some 0 →
      natToDigits B (digitsVal B l) = l := by
  intro l
  induction l using List.reverseRecOn with
  | nil => intro _ _; rfl
  | append_singleton l d ih =>
    intro hlt hhead
    have hd : d < B := hlt d (by simp)
    rw [digitsVal_append_singleton]
    match l with
    | [] =>
      have hdne : d ≠ 0 := by
        intro h; apply hhead; simp [h]
      simp only [digitsVal, List.foldl_nil, Nat.zero_mul, Nat.zero_add]
      rw [natToDigits_pos hB (by omega)]
      rw [Nat.div_eq_of_lt hd, Nat.mod_eq_of_lt hd]
      rfl
    | a :: t =>
      have hhead' : (a :: t).head? ≠ some 0 := by
        intro h; apply hhead
        simp at h
        simp [h]
      have hlt' : ∀ x ∈ a :: t, x < B := by
        intro x hx
        apply hlt
        simp only [List.mem_cons, List.mem_append] at hx ⊢
        tauto
      have hane : a ≠ 0 := by
        intro h; apply hhead'; simp [h]
      have hpos : 0 < digitsVal B (a :: t) :=
        digitsVal_pos (by omega) (show (a :: t).head? = some a from rfl) hane
      have hnpos : 0 < digitsVal B (a :: t) * B + d := by
        have h1 : 1 * 1 ≤ digitsVal B (a :: t) * B := Nat.mul_le_mul hpos (by omega)
        omega
      rw [natToDigits_pos hB hnpos]
      have hdivd : (digitsVal B (a :: t) * B + d) / B = digitsVal B (a :: t) := by
        rw [Nat.add_comm, Nat.add_mul_div_right _ _ (show 0 < B by omega),
          Nat.div_eq_of_lt hd]
        omega
      have hmodd : (digitsVal B (a :: t) * B + d) % B = d := by
        rw [Nat.add_comm, Nat.add_mul_mod_self_right, Nat.mod_eq_of_lt hd]
      rw [hdivd, hmodd, ih hlt' hhead']

theorem natToDigits_lt_base {B : Nat} (hB : 2 ≤ B) (n : Nat) :
    ∀ x ∈ natToDigits B n, x < B := by
  induction n using Nat.strong_induction_on with
  | _ n ih =>
    rcases Nat.eq_zero_or_pos n with h0 | hpos
    · subst h0; intro x hx; simp [natToDigits_zero] at hx
    · rw [natToDigits_pos hB hpos]
      intro x hx
      rcases List.mem_append.mp hx with h | h
      · exact ih (n / B) (Nat.div_lt_self hpos (by omega)) x h
      · simp at h
        subst h
        exact Nat.mod_lt _ (by omega)

theorem natToDigits_head_ne_zero {B : Nat} (hB : 2 ≤ B) (n : Nat) :
    (natToDigits B n).head? ≠ some 0 := by
  induction n using Nat.strong_induction_on with
  | _ n ih =>
    rcases Nat.eq_zero_or_pos n with h0 | hpos
    · subst h0; simp [natToDigits_zero]
    · rw [natToDigits_pos hB hpos]
      rcases Nat.eq_zero_or_pos (n / B) with hq | hq
      · have hnB : n < B := by
          rcases Nat.lt_or_ge n B with h | h
          · exact h
          · exfalso
            have := Nat.div_le_div_right (c := B) h
            rw [Nat.div_self (by omega)] at this
            omega
        rw [hq, natToDigits_zero, List.nil_append]
        have : n % B = n := Nat.mod_eq_of_lt hnB
        simp [this]
        omega
      · have hne := natToDigits_ne_nil hB hq
        match hd : natToDigits B (n / B) with
        | [] => exact absurd hd hne
        | a :: t =>
          have := ih (n / B) (Nat.div_lt_self hpos (by omega))
          rw [hd] at this
          simpa using this

theorem natToDigits_length_le {B : Nat} (hB : 2 ≤ B) :
    ∀ n k, n < B ^ k → (natToDigits B n).length ≤ k := by
  intro n
  induction n using Nat.strong_induction_on with
  | _ n ih =>
    intro k hk
    rcases Nat.eq_zero_or_pos n with h0 | hpos
    · subst h0; simp [natToDigits_zero]
    · match k with
      | 0 => simp at hk; omega
      | k + 1 =>
        rw [natToDigits_pos hB hpos]
        have hq : n / B < B ^ k := by
          rw [Nat.div_lt_iff_lt_mul (show 0 < B by omega)]
          calc n < B ^ (k + 1) := hk
            _ = B ^ k * B := by rw [Nat.pow_succ]
        have := ih (n / B) (Nat.div_lt_self hpos (by omega)) k hq
        simp [List.length_append]
        omega

theorem natToDigits_length_gt {B : Nat} (hB : 2 ≤ B) {n k : Nat}
    (h : B ^ k ≤ n) : k < (natToDigits B n).length := by
  by_contra hcon
  push_neg at hcon
  have h1 : digitsVal B (natToDigits B n) < B ^ (natToDigits B n).length :=
    digitsVal_lt hB (natToDigits_lt_base hB n)
  rw [digitsVal_natToDigits hB] at h1
  have h2 : B ^ (natToDigits B n).length ≤ B ^ k :=
    Nat.pow_le_pow_right (by omega) hcon
  omega

/-! ## SHA-256 (embedding of Go `crypto/sha256`, FIPS 180-4)

32-bit words are `Nat` values kept below `2 ^ 32` by reducing modulo
`4294967296` after every arithmetic step. -/

/-- Bitwise complement on a 32-bit word. -/
def comp32 (x : Nat) : Nat := Nat.xor x 4294967295

/-- Right rotation of a 32-bit word. -/
def rotr32 (x n : Nat) : Nat :=
  ((x % 4294967296) >>> n) + (((x % 4294967296) <<< (32 - n)) % 4294967296)

/-- Left rotation of a 32-bit word. -/
def rotl32 (x n : Nat) : Nat :=
  (((x % 4294967296) <<< n) % 4294967296) + ((x % 4294967296) >>> (32 - n))

/-- Big-endian 32-bit words from bytes (`binary.BigEndian.Uint32` per group of 4). -/
def bytesToW32 : List Nat → List Nat
  | b0 :: b1 :: b2 :: b3 :: rest =>
      (((b0 * 256 + b1) * 256 + b2) * 256 + b3) :: bytesToW32 rest
  | _ => []

/-- Big-endian bytes of a 32-bit word. -/
def w32Bytes (w : Nat) : List Nat :=
  [(w >>> 24) % 256, (w >>> 16) % 256, (w >>> 8) % 256, w % 256]

/-- Big-endian bytes of a 64-bit length field. -/
def be64Bytes (n : Nat) : List Nat :=
  [(n >>> 56) % 256, (n >>> 48) % 256, (n >>> 40) % 256, (n >>> 32) % 256,
   (n >>> 24) % 256, (n >>> 16) % 256, (n >>> 8) % 256, n % 256]

/-- The 64 SHA-256 round constants. -/
def sha256K : List Nat :=
  [1116352408, 1899447441, 3049323471, 3921009573, 961987163, 1508970993,
   2453635748, 2870763221, 3624381080, 310598401, 607225278, 1426881987,
   1925078388, 2162078206, 2614888103, 3248222580, 3835390401, 4022224774,
   264347078, 604807628, 770255983, 1249150122, 1555081692, 1996064986,
   2554220882, 2821834349, 2952996808, 3210313671, 3336571891, 3584528711,
   113926993, 338241895, 666307205, 773529912, 1294757372, 1396182291,
   1695183700, 1986661051, 2177026350, 2456956037, 2730485921, 2820302411,
   3259730800, 3345764771, 3516065817, 3600352804, 4094571909, 275423344,
   430227734, 506948616, 659060556, 883997877, 958139571, 1322822218,
   1537002063, 1747873779, 1955562222, 2024104815, 2227730452, 2361852424,
   2428436474, 2756734187, 3204031479, 3329325298]

/-- Message-schedule sigma functions. -/
def ssig0 (x : Nat) : Nat := Nat.xor (rotr32 x 7) (Nat.xor (rotr32 x 18) ((x % 4294967296) >>> 3))

def ssig1 (x : Nat) : Nat := Nat.xor (rotr32 x 17) (Nat.xor (rotr32 x 19) ((x % 4294967296) >>> 10))

/-- Extend the 16 block words by `k` further schedule words. -/
def extendW : List Nat → Nat → List Nat
  | ws, 0 => ws
  | ws, k + 1 =>
      extendW (ws ++ [(ws.getD (ws.length - 16) 0 + ssig0 (ws.getD (ws.length - 15) 0) +
        ws.getD (ws.length - 7) 0 + ssig1 (ws.getD (ws.length - 2) 0)) % 4294967296]) k

/-- The eight 32-bit working variables of SHA-256. -/
structure Sha2State where
  sa : Nat
  sb : Nat
  sc : Nat
  sd : Nat
  se : Nat
  sf : Nat
  sg : Nat
  sh : Nat

def sha256Init : Sha2State :=
  ⟨1779033703, 3144134277, 1013904242, 2773480762,
   1359893119, 2600822924, 528734635, 1541459225⟩

/-- One SHA-256 round; `kw` is `K[i] + W[i]`. -/
def sha2Round (st : Sha2State) (kw : Nat) : Sha2State :=
  let bs1 := Nat.xor (rotr32 st.se 6) (Nat.xor (rotr32 st.se 11) (rotr32 st.se 25))
  let ch := Nat.xor (Nat.land st.se st.sf) (Nat.land (comp32 st.se) st.sg)
  let t1 := (st.sh + bs1 + ch + kw) % 4294967296
  let bs0 := Nat.xor (rotr32 st.sa 2) (Nat.xor (rotr32 st.sa 13) (rotr32 st.sa 22))
  let maj := Nat.xor (Nat.land st.sa st.sb)
    (Nat.xor (Nat.land st.sa st.sc) (Nat.land st.sb st.sc))
  let t2 := (bs0 + maj) % 4294967296
  ⟨(t1 + t2) % 4294967296, st.sa, st.sb, st.sc,
   (st.sd + t1) % 4294967296, st.se, st.sf, st.sg⟩

/-- Compress one 64-byte block into the running state. -/
def sha2Compress (st : Sha2State) (block : List Nat) : Sha2State :=
  let w := extendW (bytesToW32 block) 48
  let kw := List.zipWith (fun k x => k + x) sha256K w
  let r := kw.foldl sha2Round st
  ⟨(st.sa + r.sa) % 4294967296, (st.sb + r.sb) % 4294967296,
   (st.sc + r.sc) % 4294967296, (st.sd + r.sd) % 4294967296,
   (st.se + r.se) % 4294967296, (st.sf + r.sf) % 4294967296,
   (st.sg + r.sg) % 4294967296, (st.sh + r.sh) % 4294967296⟩

/-- Split a byte list into blocks of `sz` bytes (fuel-based so the recursion
is structural; `fuel = l.length` always suffices for `sz ≥ 1`). -/
def chunksAux (sz : Nat) : Nat → List Nat → List (List Nat)
  | 0, _ => []
  | _ + 1, [] => []
  | fuel + 1, x :: xs => (x :: xs).take sz :: chunksAux sz fuel ((x :: xs).drop sz)

def chunks (sz : Nat) (l : List Nat) : List (List Nat) := chunksAux sz l.length l

/-- Merkle–Damgård padding: `0x80`, zeros, and the 64-bit big-endian bit length. -/
def sha256Pad (len : Nat) : List Nat :=
  128 :: List.replicate ((64 - (len + 9) % 64) % 64) 0 ++ be64Bytes (len * 8)

/-- SHA-256 digest (32 bytes) of a byte list, as `sha256.Sum256`. -/
def sha256 (msg : List Nat) : List Nat :=
  let final := (chunks 64 (msg ++ sha256Pad msg.length)).foldl sha2Compress sha256Init
  w32Bytes final.sa ++ w32Bytes final.sb ++ w32Bytes final.sc ++ w32Bytes final.sd ++
    w32Bytes final.se ++ w32Bytes final.sf ++ w32Bytes final.sg ++ w32Bytes final.sh

/-! ## RIPEMD-160 (embedding of Go `golang.org/x/crypto/ripemd160`)

Words are little-endian; the length field of the padding is little-endian. -/

/-- Little-endian 32-bit words from bytes. -/
def bytesToW32LE : List Nat → List Nat
  | b0 :: b1 :: b2 :: b3 :: rest =>
      (b0 + 256 * (b1 + 256 * (b2 + 256 * b3))) :: bytesToW32LE rest
  | _ => []

/-- Little-endian bytes of a 32-bit word. -/
def w32BytesLE (w : Nat) : List Nat :=
  [w % 256, (w >>> 8) % 256, (w >>> 16) % 256, (w >>> 24) % 256]

/-- Little-endian bytes of a 64-bit length field. -/
def le64Bytes (n : Nat) : List Nat :=
  [n % 256, (n >>> 8) % 256, (n >>> 16) % 256, (n >>> 24) % 256,
   (n >>> 32) % 256, (n >>> 40) % 256, (n >>> 48) % 256, (n >>> 56) % 256]

/-- Message-word order for the left line. -/
def rmdRL : List Nat :=
  [0, 1, 2, 3, 4, 5, 6, 7, 8, 9, 10, 11, 12, 13, 14, 15,
   7, 4, 13, 1, 10, 6, 15, 3, 12, 0, 9, 5, 2, 14, 11, 8,
   3, 10, 14, 4, 9, 15, 8, 1, 2, 7, 0, 6, 13, 11, 5, 12,
   1, 9, 11, 10, 0, 8, 12, 4, 13, 3, 7, 15, 14, 5, 6, 2,
   4, 0, 5, 9, 7, 12, 2, 10, 14, 1, 3, 8, 11, 6, 15, 13]

/-- Message-word order for the right line. -/
def rmdRR : List Nat :=
  [5, 14, 7, 0, 9, 2, 11, 4, 13, 6, 15, 8, 1, 10, 3, 12,
   6, 11, 3, 7, 0, 13, 5, 10, 14, 15, 8, 12, 4, 9, 1, 2,
   15, 5, 1, 3, 7, 14, 6, 9, 11, 8, 12, 2, 10, 0, 4, 13,
   8, 6, 4, 1, 3, 11, 15, 0, 5, 12, 2, 13, 9, 7, 10, 14,
   12, 15, 10, 4, 1, 5, 8, 7, 6, 2, 13, 14, 0, 3, 9, 11]

/-- Rotation amounts for the left line. -/
def rmdSL : List Nat :=
  [11, 14, 15, 12, 5, 8, 7, 9, 11, 13, 14, 15, 6, 7, 9, 8,
   7, 6, 8, 13, 11, 9, 7, 15, 7, 12, 15, 9, 11, 7, 13, 12,
   11, 13, 6, 7, 14, 9, 13, 15, 14, 8, 13, 6, 5, 12, 7, 5,
   11, 12, 14, 15, 14, 15, 9, 8, 9, 14, 5, 6, 8, 6, 5, 12,
   9, 15, 5, 11, 6, 8, 13, 12, 5, 12, 13, 14, 11, 8, 5, 6]

/-- Rotation amounts for the right line. -/
def rmdSR : List Nat :=
  [8, 9, 9, 11, 13, 15, 15, 5, 7, 7, 8, 11, 14, 14, 12, 6,
   9, 13, 15, 7, 12, 8, 9, 11, 7, 7, 12, 7, 6, 15, 13, 11,
   9, 7, 15, 11, 8, 6, 6, 14, 12, 13, 5, 14, 13, 13, 7, 5,
   15, 5, 8, 11, 14, 14, 6, 14, 6, 9, 12, 9, 12, 5, 15, 8,
   8, 5, 12, 9, 12, 5, 14, 6, 8, 13, 6, 5, 15, 13, 11, 11]

/-- Additive constants for the left line (one per group of 16 rounds). -/
def rmdKL : List Nat := [0, 1518500249, 1859775393, 2400959708, 2840853838]

/-- Additive constants for the right line. -/
def rmdKR : List Nat := [1352829926, 1548603684, 1836072691, 2053994217, 0]

/-- The five RIPEMD-160 selection functions, chosen by the round number `j`. -/
def rmdF (j x y z : Nat) : Nat :=
  if j < 16 then Nat.xor x (Nat.xor y z)
  else if j < 32 then Nat.lor (Nat.land x y) (Nat.land (comp32 x) z)
  else if j < 48 then Nat.xor (Nat.lor x (comp32 y)) z
  else if j < 64 then Nat.lor (Nat.land x z) (Nat.land y (comp32 z))
  else Nat.xor x (Nat.lor y (comp32 z))

/-- The five 32-bit working variables of RIPEMD-160. -/
structure Rmd5 where
  ra : Nat
  rb : Nat
  rc : Nat
  rd : Nat
  re : Nat

def rmdInit : Rmd5 := ⟨1732584193, 4023233417, 2562383102, 271733878, 3285377520⟩

/-- One round of one RIPEMD-160 line (`lineLeft` selects the line). -/
def rmdRound (X : List Nat) (lineLeft : Bool) (st : Rmd5) (j : Nat) : Rmd5 :=
  let fv := if lineLeft then rmdF j st.rb st.rc st.rd else rmdF (79 - j) st.rb st.rc st.rd
  let rj := (if lineLeft then rmdRL else rmdRR).getD j 0
  let sj := (if lineLeft then rmdSL else rmdSR).getD j 0
  let kj := (if lineLeft then rmdKL else rmdKR).getD (j / 16) 0
  let t := (rotl32 (st.ra + fv + X.getD rj 0 + kj) sj + st.re) % 4294967296
  ⟨st.re, t, st.rb, rotl32 st.rc 10, st.rd⟩

/-- Compress one 64-byte block into the running state. -/
def rmdCompress (st : Rmd5) (block : List Nat) : Rmd5 :=
  let X := bytesToW32LE block
  let L := (List.range 80).foldl (rmdRound X true) st
  let R := (List.range 80).foldl (rmdRound X false) st
  ⟨(st.rb + L.rc + R.rd) % 4294967296,
   (st.rc + L.rd + R.re) % 4294967296,
   (st.rd + L.re + R.ra) % 4294967296,
   (st.re + L.ra + R.rb) % 4294967296,
   (st.ra + L.rb + R.rc) % 4294967296⟩

/-- RIPEMD padding: `0x80`, zeros, and the 64-bit little-endian bit length. -/
def rmdPad (len : Nat) : List Nat :=
  128 :: List.replicate ((64 - (len + 9) % 64) % 64) 0 ++ le64Bytes (len * 8)

/-- RIPEMD-160 digest (20 bytes) of a byte list, as
`ripemd160.New` / `Write` / `Sum`. -/
def ripemd160 (msg : List Nat) : List Nat :=
  let final := (chunks 64 (msg ++ rmdPad msg.length)).foldl rmdCompress rmdInit
  w32BytesLE final.ra ++ w32BytesLE final.rb ++ w32BytesLE final.rc ++
    w32BytesLE final.rd ++ w32BytesLE final.re

/-! ## Keccak-256 (embedding of Go `crypto.Keccak256` from go-ethereum)

Legacy Keccak with rate 136 and domain-separation byte `0x01`.  Lanes are
64-bit words, serialized little-endian.  The state is a list of 25 lanes,
index `i = x + 5 * y`. -/

/-- Left rotation of a 64-bit lane. -/
def rotl64 (x n : Nat) : Nat :=
  (((x % 18446744073709551616) <<< n) % 18446744073709551616) +
    ((x % 18446744073709551616) >>> (64 - n))

/-- Bitwise complement of a 64-bit lane. -/
def comp64 (x : Nat) : Nat := Nat.xor x 18446744073709551615

/-- The 24 Keccak round constants. -/
def keccakRC : List Nat :=
  [1, 32898, 9223372036854808714, 9223372039002292224,
   32907, 2147483649, 9223372039002292353, 9223372036854808585,
   138, 136, 2147516425, 2147483658,
   2147516555, 9223372036854775947, 9223372036854808713, 9223372036854808579,
   9223372036854808578, 9223372036854775936, 32778, 9223372039002259466,
   9223372039002292353, 9223372036854808704, 2147483649, 9223372039002292232]

/-- For each output lane `j` of the rho-pi step, the source lane index:
the pi step maps source `(x, y)` to `(y, (2x + 3y) % 5)`. -/
def keccakPiSource : List Nat :=
  [0, 6, 12, 18, 24, 3, 9, 10, 16, 22, 1, 7, 13, 19, 20,
   4, 5, 11, 17, 23, 2, 8, 14, 15, 21]

/-- For each output lane `j` of the rho-pi step, the rho rotation offset of
its source lane `keccakPiSource[j]`. -/
def keccakRotByOut : List Nat :=
  [0, 44, 43, 21, 14, 28, 20, 3, 45, 61, 1, 6, 25,
   8, 18, 27, 36, 10, 15, 56, 62, 55, 39, 41, 2]

def keccakTheta (A : List Nat) : List Nat :=
  let C := (List.range 5).map fun x =>
    Nat.xor (A.getD x 0) (Nat.xor (A.getD (x + 5) 0)
      (Nat.xor (A.getD (x + 10) 0) (Nat.xor (A.getD (x + 15) 0) (A.getD (x + 20) 0))))
  let D := (List.range 5).map fun x =>
    Nat.xor (C.getD ((x + 4) % 5) 0) (rotl64 (C.getD ((x + 1) % 5) 0) 1)
  (List.range 25).map fun i => Nat.xor (A.getD i 0) (D.getD (i % 5) 0)

def keccakRhoPi (A : List Nat) : List Nat :=
  (List.range 25).map fun j =>
    rotl64 (A.getD (keccakPiSource.getD j 0) 0) (keccakRotByOut.getD j 0)

def keccakChi (B : List Nat) : List Nat :=
  (List.range 25).map fun j =>
    let x := j % 5
    let y := j / 5
    Nat.xor (B.getD j 0)
      (Nat.land (comp64 (B.getD ((x + 1) % 5 + 5 * y) 0)) (B.getD ((x + 2) % 5 + 5 * y) 0))

def keccakRound (A : List Nat) (rc : Nat) : List Nat :=
  let B := keccakChi (keccakRhoPi (keccakTheta A))
  B.set 0 (Nat.xor (B.getD 0 0) rc)

def keccakF (A : List Nat) : List Nat := keccakRC.foldl keccakRound A

/-- Little-endian 64-bit lane value of (up to) 8 bytes. -/
def le64Val (bytes : List Nat) : Nat := bytes.foldr (fun b acc => b + 256 * acc) 0

/-- Little-endian bytes of a 64-bit lane. -/
def lane8Bytes (w : Nat) : List Nat :=
  [w % 256, (w >>> 8) % 256, (w >>> 16) % 256, (w >>> 24) % 256,
   (w >>> 32) % 256, (w >>> 40) % 256, (w >>> 48) % 256, (w >>> 56) % 256]

/-- XOR one 136-byte block into the first 17 lanes and permute. -/
def keccakAbsorb (A : List Nat) (block : List Nat) : List Nat :=
  keccakF ((List.range 25).map fun i =>
    if i < 17 then Nat.xor (A.getD i 0) (le64Val ((block.drop (8 * i)).take 8))
    else A.getD i 0)

/-- Multi-rate padding with the legacy Keccak domain byte `0x01`. -/
def keccakPad (len : Nat) : List Nat :=
  if 136 - len % 136 = 1 then [0x81]
  else 0x01 :: List.replicate (136 - len % 136 - 2) 0 ++ [0x80]

/-- Keccak-256 digest (32 bytes) of a byte list, as `crypto.Keccak256`. -/
def keccak256 (msg : List Nat) : List Nat :=
  let final := (chunks 136 (msg ++ keccakPad msg.length)).foldl keccakAbsorb
    (List.replicate 25 0)
  lane8Bytes (final.getD 0 0) ++ lane8Bytes (final.getD 1 0) ++
    lane8Bytes (final.getD 2 0) ++ lane8Bytes (final.getD 3 0)

/-! ## Base58 codec (embedding of `github.com/btcsuite/btcutil/base58`)

`Encode` treats the input bytes as one big-endian integer, emits base-58
digits most significant first, and prepends one `'1'` per leading zero byte.
`Decode` is total: it returns the EMPTY byte slice when any character is
outside the alphabet (it does not return an error), otherwise the leading
`'1'`s become leading zero bytes followed by the minimal big-endian bytes of
the accumulated value. -/

/-- The Base58 alphabet, index order. -/
def base58Digits : List Char :=
  "123456789ABCDEFGHJKLMNPQRSTUVWXYZabcdefghijkmnopqrstuvwxyz".toList

/-- Character for a base-58 digit. -/
def b58Char (d : Nat) : Char := base58Digits.getD d '1'

def b58IndexAux : List Char → Nat → Char → Option Nat
  | [], _, _ => none
  | a :: rest, i, c => if a = c then some i else b58IndexAux rest (i + 1) c

/-- Alphabet position of a character (`none` when outside the alphabet,
which is what the btcsuite decode table marks with `255`). -/
def b58Index (c : Char) : Option Nat := b58IndexAux base58Digits 0 c

/-- `base58.Encode`. -/
def base58Encode (b : List Nat) : String :=
  String.mk (List.replicate (b.takeWhile (fun x => x == 0)).length '1' ++
    (natToDigits 58 (digitsVal 256 b)).map b58Char)

/-- The digit-accumulation loop of `base58.Decode`: `none` as soon as a
character is outside the alphabet. -/
def b58DecodeCore : List Char → Nat → Option Nat
  | [], acc => some acc
  | c :: rest, acc =>
    match b58Index c with
    | none => none
    | some v => b58DecodeCore rest (acc * 58 + v)

/-- `base58.Decode`: total, the empty list on any invalid character. -/
def base58Decode (s : String) : List Nat :=
  match b58DecodeCore s.data 0 with
  | none => []
  | some n =>
    List.replicate (s.data.takeWhile (fun c => c == '1')).length 0 ++ natToDigits 256 n

/-! ## The wallet (embedding of the `main` package of the source)

`Wallet` carries an ECDSA private key and the public-key bytes.  Only the
public-key bytes are read by the address derivations, so the private key is
modelled by its scalar `D`. -/

def walletVersion : Nat := 0x00

/-- The fixed compressed-key marker byte (`compressedPublicKeyPrefix = 0x02`
in the source). -/
def compressedPublicKeyByte : Nat := 0x02

def addressChecksumLen : Nat := 4

structure Wallet where
  PrivateKey : Nat
  PublicKey : List Nat

/-- The public-key bytes built by `newKeyPair` from the curve point `(X, Y)`:
`append(X.Bytes(), Y.Bytes()...)`, where `big.Int.Bytes` is the MINIMAL
big-endian representation (no left padding). -/
def newKeyPairPublicKey (X Y : Nat) : List Nat :=
  natToDigits 256 X ++ natToDigits 256 Y

/-- `checksum`: first 4 bytes of the double SHA-256 of the payload. -/
def checksum (payload : List Nat) : List Nat :=
  (sha256 (sha256 payload)).take addressChecksumLen

/-- `HashPubKey`: RIPEMD-160 of SHA-256 of the marker byte followed by the
first 32 bytes of the public key.  The slice `pubKey[:32]` panics when the
slice is shorter than 32 bytes, modelled by `none`. -/
def HashPubKey (pubKey : List Nat) : Option (List Nat) :=
  if pubKey.length < 32 then none
  else some (ripemd160 (sha256 (compressedPublicKeyByte :: pubKey.take 32)))

/-- `GetBtcAddress`: version byte, public-key hash, 4 checksum bytes,
Base58-encoded.  Propagates the `HashPubKey` panic. -/
def GetBtcAddress (w : Wallet) : Option String :=
  (HashPubKey w.PublicKey).map fun pubKeyHash =>
    let walletVersionedPayload := walletVersion :: pubKeyHash
    let fullPayload := walletVersionedPayload ++ checksum walletVersionedPayload
    base58Encode fullPayload

/-- Lowercase hex alphabet of `encoding/hex`. -/
def hexDigits : List Char := "0123456789abcdef".toList

def hexDigit (n : Nat) : Char := hexDigits.getD n '0'

def hexEncodeChars : List Nat → List Char
  | [] => []
  | b :: rest => hexDigit (b / 16) :: hexDigit (b % 16) :: hexEncodeChars rest

/-- `hex.EncodeToString`. -/
def hexEncode (l : List Nat) : String := String.mk (hexEncodeChars l)

/-- `GetEthAddress`: lowercase hex of the last 20 bytes of the Keccak-256 of
the full public key. -/
def GetEthAddress (w : Wallet) : String :=
  let publicHash := keccak256 w.PublicKey
  hexEncode (publicHash.drop (publicHash.length - 20))

/-- `ValidateAddress`.  The Go code decodes, then slices
`pubKeyHash[len-4:]`, `pubKeyHash[0]` and `pubKeyHash[1 : len-4]` with no
length guard: the first slice panics when the decoded payload is shorter
than 4 bytes and the third when it is shorter than 5, modelled by `none`.
Otherwise it compares the trailing 4 bytes with the recomputed checksum. -/
def ValidateAddress (address : String) : Option Bool :=
  let payload := base58Decode address
  if payload.length < addressChecksumLen then none
  else if payload.length < addressChecksumLen + 1 then none
  else
    let actualChecksum := payload.drop (payload.length - addressChecksumLen)
    let version := payload.headD 0
    let middle := (payload.take (payload.length - addressChecksumLen)).drop 1
    some (actualChecksum == checksum (version :: middle))

/-! ## Output shape of the hash primitives -/

theorem mem_w32Bytes_lt {w x : Nat} (hx : x ∈ w32Bytes w) : x < 256 := by
  simp [w32Bytes] at hx
  rcases hx with h | h | h | h <;> omega

theorem mem_w32BytesLE_lt {w x : Nat} (hx : x ∈ w32BytesLE w) : x < 256 := by
  simp [w32BytesLE] at hx
  rcases hx with h | h | h | h <;> omega

theorem mem_lane8Bytes_lt {w x : Nat} (hx : x ∈ lane8Bytes w) : x < 256 := by
  simp [lane8Bytes] at hx
  rcases hx with h | h | h | h | h | h | h | h <;> omega

theorem sha256_length (msg : List Nat) : (sha256 msg).length = 32 := by
  simp [sha256, w32Bytes]

theorem sha256_mem_lt (msg : List Nat) : ∀ x ∈ sha256 msg, x < 256 := by
  intro x hx
  simp only [sha256, List.mem_append] at hx
  rcases hx with ((((((h | h) | h) | h) | h) | h) | h) | h <;> exact mem_w32Bytes_lt h

theorem ripemd160_length (msg : List Nat) : (ripemd160 msg).length = 20 := by
  simp [ripemd160, w32BytesLE]

theorem ripemd160_mem_lt (msg : List Nat) : ∀ x ∈ ripemd160 msg, x < 256 := by
  intro x hx
  simp only [ripemd160, List.mem_append] at hx
  rcases hx with (((h | h) | h) | h) | h <;> exact mem_w32BytesLE_lt h

theorem keccak256_length (msg : List Nat) : (keccak256 msg).length = 32 := by
  simp [keccak256, lane8Bytes]

theorem keccak256_mem_lt (msg : List Nat) : ∀ x ∈ keccak256 msg, x < 256 := by
  intro x hx
  simp only [keccak256, List.mem_append] at hx
  rcases hx with ((h | h) | h) | h <;> exact mem_lane8Bytes_lt h

theorem checksum_length (payload : List Nat) : (checksum payload).length = 4 := by
  simp [checksum, addressChecksumLen, List.length_take, sha256_length]

theorem checksum_mem_lt (payload : List Nat) : ∀ x ∈ checksum payload, x < 256 := by
  intro x hx
  exact sha256_mem_lt _ x (List.take_subset _ _ hx)

/-! ## Base58 round trip -/

theorem b58Index_b58Char : ∀ d, d < 58 → b58Index (b58Char d) = some d := by decide

theorem b58Char_ne_one : ∀ d, d < 58 → d ≠ 0 → (b58Char d == '1') = false := by decide

theorem b58Index_one : b58Index '1' = some 0 := by decide

theorem b58DecodeCore_cons {c : Char} {v : Nat} (h : b58Index c = some v)
    (cs : List Char) (acc : Nat) :
    b58DecodeCore (c :: cs) acc = b58DecodeCore cs (acc * 58 + v) := by
  simp [b58DecodeCore, h]

theorem b58DecodeCore_map {ds : List Nat} (hds : ∀ d ∈ ds, d < 58) :
    ∀ acc, b58DecodeCore (ds.map b58Char) acc =
      some (ds.foldl (fun a d => a * 58 + d) acc) := by
  induction ds with
  | nil => intro acc; rfl
  | cons d rest ih =>
    intro acc
    have hd : d < 58 := hds d (List.mem_cons_self d rest)
    show b58DecodeCore (b58Char d :: rest.map b58Char) acc = _
    rw [b58DecodeCore_cons (b58Index_b58Char d hd)]
    exact ih (fun x hx => hds x (List.mem_cons_of_mem d hx)) (acc * 58 + d)

theorem b58DecodeCore_ones (k : Nat) (cs : List Char) :
    b58DecodeCore (List.replicate k '1' ++ cs) 0 = b58DecodeCore cs 0 := by
  induction k with
  | zero => rfl
  | succ m ih =>
    show b58DecodeCore ('1' :: (List.replicate m '1' ++ cs)) 0 = _
    rw [b58DecodeCore_cons b58Index_one]
    norm_num
    exact ih

theorem takeWhile_replicate_append {α : Type} {p : α → Bool} {a : α} (ha : p a = true)
    (k : Nat) (l : List α) :
    (List.replicate k a ++ l).takeWhile p = List.replicate k a ++ l.takeWhile p := by
  induction k with
  | zero => rfl
  | succ m ih =>
    show ((a :: (List.replicate m a ++ l)).takeWhile p) = _
    rw [List.takeWhile_cons_of_pos ha, ih]
    rfl

theorem takeWhile_zero_eq_replicate (l : List Nat) :
    l.takeWhile (fun x => x == 0) =
      List.replicate (l.takeWhile (fun x => x == 0)).length 0 := by
  induction l with
  | nil => rfl
  | cons h t ih =>
    by_cases h0 : h = 0
    · subst h0
      rw [List.takeWhile_cons_of_pos (by simp)]
      simp [List.replicate_succ]
      exact ih
    · rw [List.takeWhile_cons_of_neg (by simpa using h0)]
      rfl

theorem dropWhile_head_false {α : Type} {p : α → Bool} :
    ∀ (l : List α) (a : α), (l.dropWhile p).head? = some a → p a = false := by
  intro l
  induction l with
  | nil => intro a ha; simp [List.dropWhile] at ha
  | cons h t ih =>
    intro a ha
    by_cases hp : p h
    · rw [List.dropWhile_cons_of_pos hp] at ha
      exact ih a ha
    · rw [List.dropWhile_cons_of_neg hp] at ha
      simp at ha
      subst ha
      simpa using hp

theorem base58_encode_data (b : List Nat) :
    (base58Encode b).data =
      List.replicate (b.takeWhile (fun x => x == 0)).length '1' ++
        (natToDigits 58 (digitsVal 256 b)).map b58Char := rfl

/-- The character block emitted for the numeric value starts with no `'1'`:
the leading base-58 digit of a positive value is nonzero. -/
theorem base58_tail_no_one (n : Nat) :
    ((natToDigits 58 n).map b58Char).takeWhile (fun c => c == '1') = [] := by
  match hmatch : natToDigits 58 n with
  | [] => rfl
  | d :: rest =>
    have hhead := natToDigits_head_ne_zero (show (2:Nat) ≤ 58 by omega) n
    rw [hmatch] at hhead
    have hdne : d ≠ 0 := fun h => hhead (by simp [h])
    have hdlt : d < 58 := natToDigits_lt_base (by omega) n d
      (by rw [hmatch]; exact List.mem_cons_self _ _)
    show ((b58Char d :: rest.map b58Char).takeWhile (fun c => c == '1')) = []
    apply List.takeWhile_cons_of_neg
    simp [b58Char_ne_one d hdlt hdne]

/-- The encoding starts with exactly one `'1'` per leading zero byte. -/
theorem base58_encode_ones (b : List Nat) :
    ((base58Encode b).data.takeWhile (fun c => c == '1')).length =
      (b.takeWhile (fun x => x == 0)).length := by
  rw [base58_encode_data, takeWhile_replicate_append (by decide), base58_tail_no_one]
  simp

/-- Core Base58 round trip: decoding an encoding recovers the bytes. -/
theorem base58_decode_encode {b : List Nat} (hb : ∀ x ∈ b, x < 256) :
    base58Decode (base58Encode b) = b := by
  have h256 : (2 : Nat) ≤ 256 := by omega
  have h58 : (2 : Nat) ≤ 58 := by omega
  have hcore : b58DecodeCore (base58Encode b).data 0 = some (digitsVal 256 b) := by
    rw [base58_encode_data, b58DecodeCore_ones,
      b58DecodeCore_map (natToDigits_lt_base h58 _)]
    show some (digitsVal 58 (natToDigits 58 (digitsVal 256 b))) = _
    rw [digitsVal_natToDigits h58]
  have hsplit : List.replicate (b.takeWhile (fun x => x == 0)).length 0 ++
      b.dropWhile (fun x => x == 0) = b := by
    conv_rhs => rw [← List.takeWhile_append_dropWhile (p := fun x => x == 0) (l := b)]
    rw [← takeWhile_zero_eq_replicate]
  have hnval : digitsVal 256 b = digitsVal 256 (b.dropWhile (fun x => x == 0)) := by
    conv_lhs => rw [← hsplit]
    rw [digitsVal_replicate_zero_append]
  have hrest : natToDigits 256 (digitsVal 256 b) = b.dropWhile (fun x => x == 0) := by
    rw [hnval]
    apply natToDigits_digitsVal h256
    · intro x hx
      exact hb x ((List.dropWhile_sublist _).subset hx)
    · intro hhead
      have h := dropWhile_head_false (p := fun x => x == 0) b 0 hhead
      simp at h
  unfold base58Decode
  simp only [hcore]
  rw [base58_encode_ones, hrest, hsplit]

/-! ## Validation of checksummed payloads -/

/-- Validating the Base58 encoding of any payload of at least 5 bytes whose
trailing 4 bytes are the checksum of the leading bytes yields `some true`,
whatever the leading version byte is. -/
theorem validateAddress_encode {payload : List Nat} (h5 : 5 ≤ payload.length)
    (hb : ∀ x ∈ payload, x < 256)
    (hchk : payload.drop (payload.length - 4) =
      checksum (payload.take (payload.length - 4))) :
    ValidateAddress (base58Encode payload) = some true := by
  obtain ⟨p0, rest, rfl⟩ : ∃ p0 rest, payload = p0 :: rest := by
    cases payload with
    | nil => simp at h5
    | cons a l => exact ⟨a, l, rfl⟩
  have h5' : 4 ≤ rest.length := by
    simp [List.length_cons] at h5
    omega
  have hdec : base58Decode (base58Encode (p0 :: rest)) = p0 :: rest :=
    base58_decode_encode hb
  simp only [ValidateAddress, addressChecksumLen, hdec]
  rw [if_neg (by simp; omega), if_neg (by simp; omega)]
  have hlen : (p0 :: rest).length - 4 = (rest.length - 4) + 1 := by
    simp
    omega
  have hcons : (p0 :: rest).headD 0 ::
      (((p0 :: rest).take ((p0 :: rest).length - 4)).drop 1) =
      (p0 :: rest).take ((p0 :: rest).length - 4) := by
    rw [hlen, List.take_succ_cons]
    rfl
  rw [hcons, ← hchk]
  simp

/-! ## Hex encoding -/

theorem hexEncodeChars_length (l : List Nat) :
    (hexEncodeChars l).length = 2 * l.length := by
  induction l with
  | nil => rfl
  | cons b rest ih =>
    show (hexDigit _ :: hexDigit _ :: hexEncodeChars rest).length = _
    simp [ih]
    omega

theorem hexDigit_mem (n : Nat) : hexDigit n ∈ hexDigits := by
  rcases Nat.lt_or_ge n 16 with h | h
  · exact (by decide : ∀ m, m < 16 → hexDigit m ∈ hexDigits) n h
  · have h16 : hexDigits.length ≤ n := by
      have hlen : hexDigits.length = 16 := by decide
      omega
    unfold hexDigit
    rw [List.getD_eq_default _ _ h16]
    decide

theorem hexEncodeChars_mem (l : List Nat) : ∀ c ∈ hexEncodeChars l, c ∈ hexDigits := by
  induction l with
  | nil => intro c hc; simp [hexEncodeChars] at hc
  | cons b rest ih =>
    intro c hc
    simp only [hexEncodeChars, List.mem_cons] at hc
    rcases hc with h | h | h
    · subst h; exact hexDigit_mem _
    · subst h; exact hexDigit_mem _
    · exact ih c h

/-! ## Decode analysis for the error-handling claims -/

theorem b58DecodeCore_none_iff : ∀ (cs : List Char) (acc : Nat),
    b58DecodeCore cs acc = none ↔ ∃ c ∈ cs, b58Index c = none := by
  intro cs
  induction cs with
  | nil => intro acc; simp [b58DecodeCore]
  | cons c rest ih =>
    intro acc
    match hidx : b58Index c with
    | none =>
      simp only [b58DecodeCore, hidx]
      exact iff_of_true trivial ⟨c, by simp, hidx⟩
    | some v =>
      simp only [b58DecodeCore, hidx]
      rw [ih (acc * 58 + v)]
      constructor
      · rintro ⟨a, ha, hia⟩
        exact ⟨a, List.mem_cons_of_mem c ha, hia⟩
      · rintro ⟨a, ha, hia⟩
        rcases List.mem_cons.mp ha with rfl | ha'
        · rw [hidx] at hia
          cases hia
        · exact ⟨a, ha', hia⟩

theorem b58DecodeCore_ge : ∀ (cs : List Char) (acc n : Nat),
    b58DecodeCore cs acc = some n → acc ≤ n := by
  intro cs
  induction cs with
  | nil =>
    intro acc n h
    simp [b58DecodeCore] at h
    omega
  | cons c rest ih =>
    intro acc n h
    match hidx : b58Index c with
    | none =>
      simp only [b58DecodeCore, hidx] at h
      exact Option.noConfusion h
    | some v =>
      simp only [b58DecodeCore, hidx] at h
      have h1 := ih (acc * 58 + v) n h
      have h2 : acc ≤ acc * 58 := Nat.le_mul_of_pos_right acc (by omega)
      omega

theorem b58IndexAux_ge : ∀ (l : List Char) (i : Nat) (c : Char) (v : Nat),
    b58IndexAux l i c = some v → i ≤ v := by
  intro l
  induction l with
  | nil => intro i c v h; simp [b58IndexAux] at h
  | cons a rest ih =>
    intro i c v h
    unfold b58IndexAux at h
    by_cases hac : a = c
    · rw [if_pos hac] at h
      simp at h
      omega
    · rw [if_neg hac] at h
      have := ih (i + 1) c v h
      omega

theorem b58IndexAux_head : ∀ (l : List Char) (i : Nat) (c : Char),
    b58IndexAux l i c = some i → l.head? = some c := by
  intro l i c h
  match l with
  | [] => simp [b58IndexAux] at h
  | a :: rest =>
    unfold b58IndexAux at h
    by_cases hac : a = c
    · simp [hac]
    · rw [if_neg hac] at h
      have := b58IndexAux_ge rest (i + 1) c i h
      omega

theorem b58Index_zero_eq_one {c : Char} (h : b58Index c = some 0) : c = '1' := by
  have h2 : some '1' = some c := b58IndexAux_head base58Digits 0 c h
  exact (Option.some.inj h2).symm

theorem base58Decode_invalid {s : String} (h : ∃ c ∈ s.data, b58Index c = none) :
    base58Decode s = [] := by
  unfold base58Decode
  rw [(b58DecodeCore_none_iff s.data 0).mpr h]

theorem base58Decode_ne_nil {s : String} (hne : s.data ≠ [])
    (hval : ∀ c ∈ s.data, b58Index c ≠ none) : base58Decode s ≠ [] := by
  obtain ⟨c, rest, hs⟩ : ∃ c rest, s.data = c :: rest := by
    match hd : s.data with
    | [] => exact absurd hd hne
    | c :: rest => exact ⟨c, rest, rfl⟩
  obtain ⟨n, hcore⟩ : ∃ n, b58DecodeCore s.data 0 = some n := by
    cases hc : b58DecodeCore s.data 0 with
    | none =>
      obtain ⟨a, ha, hia⟩ := (b58DecodeCore_none_iff s.data 0).mp hc
      exact absurd hia (hval a ha)
    | some n => exact ⟨n, rfl⟩
  intro hnil
  unfold base58Decode at hnil
  simp only [hcore] at hnil
  rcases List.append_eq_nil.mp hnil with ⟨h1, h2⟩
  have hk : (s.data.takeWhile (fun c => c == '1')).length = 0 := by
    simpa using congrArg List.length h1
  have hn0 : n = 0 := by
    by_contra hn
    exact natToDigits_ne_nil (by omega) (Nat.pos_of_ne_zero hn) h2
  by_cases hc1 : c = '1'
  · rw [hs, hc1] at hk
    rw [List.takeWhile_cons_of_pos (by decide)] at hk
    simp at hk
  · rw [hs] at hcore
    obtain ⟨v, hv⟩ : ∃ v, b58Index c = some v := by
      cases hidx : b58Index c with
      | none =>
        have hcmem : c ∈ s.data := by rw [hs]; exact List.mem_cons_self _ _
        exact absurd hidx (hval c hcmem)
      | some v => exact ⟨v, rfl⟩
    simp only [b58DecodeCore, hv] at hcore
    have hge := b58DecodeCore_ge rest (0 * 58 + v) n hcore
    have hv0 : v = 0 := by omega
    exact hc1 (b58Index_zero_eq_one (hv0 ▸ hv))

/-! ## Key-pair byte lengths (for the `newKeyPair` claims) -/

theorem natToDigits_length_32 {n : Nat} (hlo : 2 ^ 248 ≤ n) (hhi : n < 2 ^ 256) :
    (natToDigits 256 n).length = 32 := by
  have h1 : (natToDigits 256 n).length ≤ 32 := by
    apply natToDigits_length_le (by omega)
    calc n < 2 ^ 256 := hhi
      _ = 256 ^ 32 := by norm_num
  have h2 : 31 < (natToDigits 256 n).length := by
    apply natToDigits_length_gt (by omega)
    calc (256 : Nat) ^ 31 = 2 ^ 248 := by norm_num
      _ ≤ n := hlo
  omega

/-- The secp256k1 field prime (the curve returned by `crypto.S256`). -/
def secpP : Nat :=
  115792089237316195423570985008687907853269984665640564039457584007908834671663

/-- A square root of 8 modulo `secpP`, so that `(1, secpY)` satisfies the
curve equation `y ^ 2 = x ^ 3 + 7`: a generatable key pair whose X
coordinate is a single byte. -/
def secpY : Nat :=
  29896722852569046015560700294576055776214335159245303116488692907525646231534

/-! ## Derivation helpers shared by the Bitcoin-path claims -/

theorem hashPubKey_of_ge {pk : List Nat} (h : 32 ≤ pk.length) :
    HashPubKey pk = some (ripemd160 (sha256 (compressedPublicKeyByte :: pk.take 32))) := by
  unfold HashPubKey
  rw [if_neg (by omega)]

theorem getBtcAddress_of_ge {w : Wallet} (h : 32 ≤ w.PublicKey.length) :
    GetBtcAddress w = some (base58Encode
      ((walletVersion :: ripemd160 (sha256 (compressedPublicKeyByte :: w.PublicKey.take 32))) ++
        checksum (walletVersion :: ripemd160 (sha256 (compressedPublicKeyByte :: w.PublicKey.take 32))))) := by
  unfold GetBtcAddress
  rw [hashPubKey_of_ge h]
  rfl

theorem btcPayload_mem_lt (pk : List Nat) :
    ∀ x ∈ (walletVersion :: ripemd160 (sha256 (compressedPublicKeyByte :: pk.take 32))) ++
      checksum (walletVersion :: ripemd160 (sha256 (compressedPublicKeyByte :: pk.take 32))),
      x < 256 := by
  intro x hx
  rcases List.mem_append.mp hx with h | h
  · rcases List.mem_cons.mp h with rfl | h2
    · norm_num [walletVersion]
    · exact ripemd160_mem_lt _ x h2
  · exact checksum_mem_lt _ x h

theorem btcPayload_length (pk : List Nat) :
    ((walletVersion :: ripemd160 (sha256 (compressedPublicKeyByte :: pk.take 32))) ++
      checksum (walletVersion :: ripemd160 (sha256 (compressedPublicKeyByte :: pk.take 32)))).length
      = 25 := by
  simp [List.length_append, ripemd160_length, checksum_length]

/-! ## The claims -/

/-- Claim C2: for every 64-byte public key, `GetBtcAddress` is total and
produces the Base58 encoding of
`0x00 ∥ ripemd160 (sha256 (0x02 ∥ publicKey[0:32])) ∥ first 4 bytes of the
double SHA-256 of the 21-byte versioned payload`, and that full payload is
exactly 25 bytes, recovered exactly by Base58 decoding of the address. -/
theorem getBtcAddress_spec (w : Wallet) (hlen : w.PublicKey.length = 64)
    (hbytes : ∀ b ∈ w.PublicKey, b < 256) :
    ∃ fullPayload,
      fullPayload =
        (walletVersion :: ripemd160 (sha256 (compressedPublicKeyByte :: w.PublicKey.take 32))) ++
          checksum (walletVersion :: ripemd160 (sha256 (compressedPublicKeyByte :: w.PublicKey.take 32))) ∧
      GetBtcAddress w = some (base58Encode fullPayload) ∧
      base58Decode (base58Encode fullPayload) = fullPayload ∧
      fullPayload.length = 25 := by
  refine ⟨_, rfl, getBtcAddress_of_ge (by omega), ?_, btcPayload_length w.PublicKey⟩
  exact base58_decode_encode (btcPayload_mem_lt w.PublicKey)

theorem getBtcAddress_spec_witness :
    ∃ fullPayload,
      fullPayload =
        (walletVersion :: ripemd160 (sha256 (compressedPublicKeyByte ::
            (Wallet.mk 0 (List.replicate 64 0)).PublicKey.take 32))) ++
          checksum (walletVersion :: ripemd160 (sha256 (compressedPublicKeyByte ::
            (Wallet.mk 0 (List.replicate 64 0)).PublicKey.take 32))) ∧
      GetBtcAddress ⟨0, List.replicate 64 0⟩ = some (base58Encode fullPayload) ∧
      base58Decode (base58Encode fullPayload) = fullPayload ∧
      fullPayload.length = 25 :=
  getBtcAddress_spec ⟨0, List.replicate 64 0⟩ (by decide) (by decide)

/-- Claim C3: validating the Bitcoin address derived from a key pair (with
version byte `0x00` and compressed-marker byte `0x02`, the constants of the
source) returns `true`.  Key generation itself is randomized and external;
the statement covers every wallet whose public key has at least 32 bytes,
in particular every 64-byte generated key. -/
theorem validate_getBtcAddress (w : Wallet) (hlen : 32 ≤ w.PublicKey.length) :
    ∃ addr, GetBtcAddress w = some addr ∧ ValidateAddress addr = some true := by
  refine ⟨_, getBtcAddress_of_ge hlen, ?_⟩
  have hvp : (walletVersion ::
      ripemd160 (sha256 (compressedPublicKeyByte :: w.PublicKey.take 32))).length = 21 := by
    simp [ripemd160_length]
  apply validateAddress_encode
  · rw [btcPayload_length]
    omega
  · exact btcPayload_mem_lt w.PublicKey
  · rw [btcPayload_length, show (25 - 4 : Nat) = 21 from rfl, ← hvp,
      List.drop_left, List.take_left]

theorem validate_getBtcAddress_witness :
    ∃ addr, GetBtcAddress ⟨3, List.replicate 64 1⟩ = some addr ∧
      ValidateAddress addr = some true :=
  validate_getBtcAddress ⟨3, List.replicate 64 1⟩ (by decide)

/-- Claim C4: the Base58 codec round-trips every byte sequence, including
sequences with leading zero bytes, and maps each leading zero byte to one
leading `'1'` character of the encoding. -/
theorem base58_roundtrip (b : List Nat) (hb : ∀ x ∈ b, x < 256) :
    base58Decode (base58Encode b) = b ∧
      ((base58Encode b).data.takeWhile (fun c => c == '1')).length =
        (b.takeWhile (fun x => x == 0)).length :=
  ⟨base58_decode_encode hb, base58_encode_ones b⟩

theorem base58_roundtrip_witness :
    base58Decode (base58Encode [0, 0, 255, 1]) = [0, 0, 255, 1] ∧
      ((base58Encode [0, 0, 255, 1]).data.takeWhile (fun c => c == '1')).length =
        ([0, 0, 255, 1].takeWhile (fun x => x == 0)).length :=
  base58_roundtrip [0, 0, 255, 1] (by decide)

/-- Claim C1 (counterexample): on the empty string the validator does NOT
return `false`: `base58.Decode("")` is empty, so the slice
`pubKeyHash[len(pubKeyHash)-4:]` is out of range and `ValidateAddress`
panics (modelled by `none`). -/
theorem validateAddress_empty_panics : ValidateAddress "" = none := rfl

/-- Claim C1 (amended): the validator panics exactly on the inputs whose
Base58 decoding is shorter than 5 bytes — which includes the empty string,
every string with a character outside the Base58 alphabet (they decode to
the empty payload), and every short payload; on all other inputs it returns
a boolean and never propagates an error. -/
theorem validateAddress_none_iff (s : String) :
    ValidateAddress s = none ↔ (base58Decode s).length < 5 := by
  simp only [ValidateAddress, addressChecksumLen]
  split
  · next h => exact iff_of_true rfl (by omega)
  · next h =>
    split
    · next h2 => exact iff_of_true rfl (by omega)
    · next h2 => exact iff_of_false (by simp) (by omega)

theorem validateAddress_none_iff_witness :
    ValidateAddress (String.mk ['#', '#', '#']) = none :=
  (validateAddress_none_iff (String.mk ['#', '#', '#'])).mpr (by decide)

/-- Claim C5 (counterexample): the point `(1, secpY)` lies on secp256k1
(`y ^ 2 = x ^ 3 + 7` over the field of order `secpP`), so the corresponding
key pair is generatable, yet `newKeyPair` builds a 33-byte public key for
it — `big.Int.Bytes` does not left-pad the coordinates to 32 bytes. -/
theorem newKeyPairPublicKey_not_padded :
    1 < secpP ∧ secpY < secpP ∧
      (secpY * secpY) % secpP = (1 * 1 * 1 + 7) % secpP ∧
      (newKeyPairPublicKey 1 secpY).length ≠ 64 := by decide

/-- Claim C5 (amended): the public key produced by `newKeyPair` is the
concatenation of the MINIMAL big-endian byte strings of the coordinates,
with no left padding: its length is at most 64 and equals 64 exactly when
both coordinates are at least `2 ^ 248` (i.e. need a full 32 bytes). -/
theorem newKeyPairPublicKey_length (X Y : Nat) (hX : X < 2 ^ 256) (hY : Y < 2 ^ 256) :
    newKeyPairPublicKey X Y = natToDigits 256 X ++ natToDigits 256 Y ∧
    (newKeyPairPublicKey X Y).length ≤ 64 ∧
    ((newKeyPairPublicKey X Y).length = 64 ↔ 2 ^ 248 ≤ X ∧ 2 ^ 248 ≤ Y) := by
  have h2256 : (2 : Nat) ≤ 256 := by omega
  have hsum : (newKeyPairPublicKey X Y).length =
      (natToDigits 256 X).length + (natToDigits 256 Y).length := by
    show (natToDigits 256 X ++ natToDigits 256 Y).length = _
    exact List.length_append _ _
  have hX32 : (natToDigits 256 X).length ≤ 32 :=
    natToDigits_length_le h2256 X 32
      (by calc X < 2 ^ 256 := hX
        _ = 256 ^ 32 := by norm_num)
  have hY32 : (natToDigits 256 Y).length ≤ 32 :=
    natToDigits_length_le h2256 Y 32
      (by calc Y < 2 ^ 256 := hY
        _ = 256 ^ 32 := by norm_num)
  refine ⟨rfl, ?_, ?_, ?_⟩
  · rw [hsum]
    omega
  · intro h64
    rw [hsum] at h64
    constructor
    · by_contra hXlt
      push_neg at hXlt
      have hX31 : (natToDigits 256 X).length ≤ 31 :=
        natToDigits_length_le h2256 X 31
          (by calc X < 2 ^ 248 := hXlt
            _ = 256 ^ 31 := by norm_num)
      omega
    · by_contra hYlt
      push_neg at hYlt
      have hY31 : (natToDigits 256 Y).length ≤ 31 :=
        natToDigits_length_le h2256 Y 31
          (by calc Y < 2 ^ 248 := hYlt
            _ = 256 ^ 31 := by norm_num)
      omega
  · rintro ⟨hX8, hY8⟩
    rw [hsum, natToDigits_length_32 hX8 hX, natToDigits_length_32 hY8 hY]

theorem newKeyPairPublicKey_length_witness :
    newKeyPairPublicKey (2 ^ 255) (2 ^ 255) =
      natToDigits 256 (2 ^ 255) ++ natToDigits 256 (2 ^ 255) ∧
    (newKeyPairPublicKey (2 ^ 255) (2 ^ 255)).length ≤ 64 ∧
    ((newKeyPairPublicKey (2 ^ 255) (2 ^ 255)).length = 64 ↔
      2 ^ 248 ≤ 2 ^ 255 ∧ 2 ^ 248 ≤ 2 ^ 255) :=
  newKeyPairPublicKey_length (2 ^ 255) (2 ^ 255) (by norm_num) (by norm_num)

/-- Claim C6: for every 64-byte public key, `GetEthAddress` returns the
lowercase hex encoding of the last 20 bytes of the Keccak-256 of the full
unprefixed key, and the result is exactly 40 characters of the lowercase
hex alphabet. -/
theorem getEthAddress_spec (w : Wallet) (hlen : w.PublicKey.length = 64) :
    GetEthAddress w =
      hexEncode ((keccak256 w.PublicKey).drop ((keccak256 w.PublicKey).length - 20)) ∧
    (GetEthAddress w).length = 40 ∧
    ∀ c ∈ (GetEthAddress w).data, c ∈ hexDigits := by
  refine ⟨rfl, ?_, ?_⟩
  · show (hexEncodeChars
      ((keccak256 w.PublicKey).drop ((keccak256 w.PublicKey).length - 20))).length = 40
    rw [hexEncodeChars_length, List.length_drop, keccak256_length]
  · intro c hc
    have hc' : c ∈ hexEncodeChars
        ((keccak256 w.PublicKey).drop ((keccak256 w.PublicKey).length - 20)) := hc
    exact hexEncodeChars_mem _ c hc'

theorem getEthAddress_spec_witness :
    GetEthAddress ⟨0, List.replicate 64 2⟩ =
      hexEncode ((keccak256 (Wallet.mk 0 (List.replicate 64 2)).PublicKey).drop
        ((keccak256 (Wallet.mk 0 (List.replicate 64 2)).PublicKey).length - 20)) ∧
    (GetEthAddress ⟨0, List.replicate 64 2⟩).length = 40 ∧
    ∀ c ∈ (GetEthAddress ⟨0, List.replicate 64 2⟩).data, c ∈ hexDigits :=
  getEthAddress_spec ⟨0, List.replicate 64 2⟩ (by decide)

/-- Claim C7 (counterexample): `'0'` is outside the Base58 alphabet, yet
decoding does not fail with an error: it returns the empty byte slice, and
validation of such a string panics — the invalid character is not surfaced
distinctly from a checksum failure. -/
theorem base58Decode_invalid_char_no_error :
    base58Decode (String.mk ['0']) = [] ∧
      ValidateAddress (String.mk ['0']) = none := by decide

/-- Claim C7 (amended): Base58 decoding is total and never raises; it
returns the EMPTY byte sequence exactly when the input string is empty or
some character of it is outside the 58-symbol alphabet, so an
invalid-character failure is indistinguishable from decoding the empty
string. -/
theorem base58Decode_eq_nil_iff (s : String) :
    base58Decode s = [] ↔ s.data = [] ∨ ∃ c ∈ s.data, b58Index c = none := by
  constructor
  · intro h
    by_contra hcon
    push_neg at hcon
    obtain ⟨hne, hval⟩ := hcon
    exact base58Decode_ne_nil hne (fun c hc => hval c hc) h
  · rintro (h | h)
    · cases s with
      | mk d =>
        have h' : d = [] := h
        subst h'
        rfl
    · exact base58Decode_invalid h

theorem base58Decode_eq_nil_iff_witness :
    base58Decode (String.mk ['@']) = [] :=
  (base58Decode_eq_nil_iff (String.mk ['@'])).mpr (Or.inr (by decide))

/-- Claim C8: the validator does not constrain the version byte: the Base58
encoding of ANY payload of at least 5 bytes whose trailing 4 bytes equal the
first 4 bytes of the double SHA-256 of the preceding bytes validates to
`true`, whether or not the leading byte is `walletVersion = 0x00`. -/
theorem validateAddress_any_version (payload : List Nat) (h5 : 5 ≤ payload.length)
    (hb : ∀ x ∈ payload, x < 256)
    (hchk : payload.drop (payload.length - 4) =
      checksum (payload.take (payload.length - 4))) :
    ValidateAddress (base58Encode payload) = some true :=
  validateAddress_encode h5 hb hchk

set_option maxRecDepth 100000 in
theorem validateAddress_any_version_witness :
    ValidateAddress (base58Encode [1, 156, 18, 207, 220]) = some true :=
  validateAddress_any_version [1, 156, 18, 207, 220] (by decide) (by decide) (by decide)

/-- Claim C9: `HashPubKey` requires at least 32 bytes of input: on such
inputs it is total and returns the 20-byte RIPEMD-160 digest, while on any
shorter input the slice `pubKey[:32]` is out of range and the function
panics (modelled by `none`). -/
theorem hashPubKey_spec (pubKey : List Nat) :
    (32 ≤ pubKey.length →
      ∃ d, HashPubKey pubKey = some d ∧ d.length = 20 ∧
        d = ripemd160 (sha256 (compressedPublicKeyByte :: pubKey.take 32))) ∧
    (pubKey.length < 32 → HashPubKey pubKey = none) := by
  constructor
  · intro h
    exact ⟨_, hashPubKey_of_ge h, ripemd160_length _, rfl⟩
  · intro h
    unfold HashPubKey
    rw [if_pos h]

theorem hashPubKey_spec_witness :
    (∃ d, HashPubKey (List.replicate 32 7) = some d ∧ d.length = 20 ∧
      d = ripemd160 (sha256 (compressedPublicKeyByte :: (List.replicate 32 7).take 32))) ∧
    HashPubKey [1, 2, 3] = none :=
  ⟨(hashPubKey_spec (List.replicate 32 7)).1 (by decide),
   (hashPubKey_spec [1, 2, 3]).2 (by decide)⟩

/-- Claim C10: both address derivations read only the wallet's public key:
two wallets with equal `PublicKey` fields and arbitrary different
`PrivateKey` fields derive identical Ethereum and Bitcoin addresses (and,
the embedding being pure with the Go methods taking the wallet by value,
neither derivation mutates the wallet). -/
theorem addresses_ignore_private_key (w1 w2 : Wallet)
    (hpub : w1.PublicKey = w2.PublicKey) :
    GetEthAddress w1 = GetEthAddress w2 ∧ GetBtcAddress w1 = GetBtcAddress w2 := by
  constructor
  · unfold GetEthAddress
    rw [hpub]
  · unfold GetBtcAddress
    rw [hpub]

theorem addresses_ignore_private_key_witness :
    GetEthAddress ⟨1, List.replicate 64 5⟩ = GetEthAddress ⟨2, List.replicate 64 5⟩ ∧
    GetBtcAddress ⟨1, List.replicate 64 5⟩ = GetBtcAddress ⟨2, List.replicate 64 5⟩ :=
  addresses_ignore_private_key ⟨1, List.replicate 64 5⟩ ⟨2, List.replicate 64 5⟩ rfl
